import Mathlib

/-!
Verification of the mutation-to-transcript mapping core of `neoepiscope`
(`neoepiscope/__init__.py`), shallowly embedded in Lean.

The embedding models:
* `process_haplotypes` — classification of mutation lines into
  substitutions / deletions / insertions, per-block accumulation keyed by
  transcript, sorting and emission of haplotypes at block terminators;
* `get_peptides_from_transcripts` — germline/somatic classification,
  per-copy zygosity dispatch of edits, peptide-metadata accumulation with
  duplicate suppression, and the per-haplotype reset of both transcript
  copies;
* the tail of `main` — parsing of the k-mer size list and validation of the
  `--upstream_atgs` policy.

The `Transcript` class lives in the package's `transcript` module (not part
of the sources analysed here); its state is modelled abstractly as the list
of edits applied to a copy, and its `neopeptides` method is a parameter of
the embedding.
-/

namespace Neoepiscope

/-- The `alt` field of a stored mutation entry: the source stores either a
string (substitutions, insertions) or the integer deletion length. -/
inductive AltVal where
  | str (s : String)
  | size (n : Nat)
deriving DecidableEq, Repr

/-- Python string slicing `s[n:]`: drop the first `n` characters. -/
def pyDrop (n : Nat) (s : String) : String := ⟨s.data.drop n⟩

/-- Result of classifying one mutation line in `process_haplotypes`
(lines 248–268): mutation type code, (possibly shifted) position, reference
allele, stored alternate, and the exclusive end of the genomic span. -/
structure Classified where
  mtype : Char
  pos : Nat
  ref : String
  alt : AltVal
  ePos : Nat
deriving DecidableEq, Repr

/-- Classification of a mutation line by comparing allele lengths, as in
`process_haplotypes`: equal lengths give a substitution `'V'`; a longer
reference gives a deletion `'D'` with the position advanced past the
retained prefix and the alternate stored as the integer deletion size;
a shorter reference gives an insertion `'I'` anchored at the original
position with the alternate stored as the suffix after the reference
prefix and a single-base span. -/
def classifyMutation (pos : Nat) (ref alt : String) : Classified :=
  if ref.length = alt.length then
    { mtype := 'V', pos := pos, ref := ref, alt := .str alt,
      ePos := pos + ref.length }
  else if ref.length > alt.length then
    let deletionSize := ref.length - alt.length
    let pos' := pos + (ref.length - deletionSize)
    { mtype := 'D', pos := pos', ref := ref, alt := .size deletionSize,
      ePos := pos' + deletionSize }
  else
    { mtype := 'I', pos := pos, ref := ref,
      alt := .str (pyDrop ref.length alt), ePos := pos + 1 }

/-- One mutation entry appended to a transcript's block accumulator in
`process_haplotypes`: `[tokens[3], pos, ref, alt, tokens[1], tokens[2],
tokens[7], mutation_type]`. -/
structure MutEntry where
  chrom : String
  pos : Nat
  ref : String
  alt : AltVal
  alleleA : String
  alleleB : String
  gen : String
  mtype : Char
deriving DecidableEq, Repr

/-- One line of the (already tokenized) HapCUT2-derived stream read by
`process_haplotypes`: a `BLOCK` header, a `*` block terminator, or a
mutation line carrying tokens 1–7 (copy-A flag, copy-B flag, chromosome,
position, reference, alternate, genotype string). -/
inductive HapcutLine where
  | blockHeader
  | terminator
  | mutation (tokenA tokenB chrom : String) (pos : Nat) (ref alt gen : String)
deriving DecidableEq, Repr

/-- Insertion-ordered dictionary (Python `dict` / `defaultdict` keyed by
strings), modelled as an association list in key-insertion order. -/
abbrev Dict (α : Type) := List (String × α)

/-- Dictionary lookup with the `defaultdict(list)` default `[]`. -/
def dictGet (d : Dict (List α)) (k : String) : List α :=
  match d.find? (fun p => p.1 == k) with
  | some p => p.2
  | none => []

/-- `d[k].append(v)` on a `defaultdict(list)`: extend the list at `k`,
inserting the key at the end if absent. -/
def dictAppend (d : Dict (List α)) (k : String) (v : α) : Dict (List α) :=
  match d with
  | [] => [(k, [v])]
  | (k', l) :: rest =>
      if k' == k then (k', l ++ [v]) :: rest else (k', l) :: dictAppend rest k v

/-- Ordering of mutation entries by genomic position, the sort key
`itemgetter(1)` used at block terminators. -/
def posLE (m₁ m₂ : MutEntry) : Prop := m₁.pos ≤ m₂.pos

instance : DecidableRel posLE := fun m₁ m₂ => Nat.decLe m₁.pos m₂.pos

instance : IsTotal MutEntry posLE := ⟨fun m₁ m₂ => Nat.le_total m₁.pos m₂.pos⟩

instance : IsTrans MutEntry posLE := ⟨fun _ _ _ => Nat.le_trans⟩

/-- State threaded through the line loop of `process_haplotypes`:
`affected_transcripts` (transcript → emitted haplotypes) and
`block_transcripts` (transcript → mutations of the current block). -/
structure PHState where
  affected : Dict (List (List MutEntry))
  blockT : Dict (List MutEntry)
deriving Repr

/-- Processing of one stream line in `process_haplotypes`, parameterized by
the interval-tree query `get_transcripts_from_tree` (external module):
block headers are skipped; a terminator sorts each transcript's accumulated
mutations by position, emits them as one haplotype, and clears the block
accumulator; a mutation line is classified and appended to the block
accumulator of every overlapping transcript. -/
def phStep (query : String → Nat → Nat → List String) (st : PHState)
    (line : HapcutLine) : PHState :=
  match line with
  | .blockHeader => st
  | .terminator =>
      { affected := st.blockT.foldl
          (fun aff p => dictAppend aff p.1 (p.2.insertionSort posLE))
          st.affected,
        blockT := [] }
  | .mutation tokenA tokenB chrom pos ref alt gen =>
      let c := classifyMutation pos ref alt
      let entry : MutEntry :=
        { chrom := chrom, pos := c.pos, ref := c.ref, alt := c.alt,
          alleleA := tokenA, alleleB := tokenB, gen := gen, mtype := c.mtype }
      let overlapping := query chrom c.pos c.ePos
      { st with
        blockT := overlapping.foldl (fun bt tid => dictAppend bt tid entry)
          st.blockT }

/-- `process_haplotypes`: fold the stream through `phStep` from empty
dictionaries and return `affected_transcripts`. -/
def processHaplotypes (query : String → Nat → Nat → List String)
    (lines : List HapcutLine) : Dict (List (List MutEntry)) :=
  (lines.foldl (phStep query) { affected := [], blockT := [] }).affected

/-- Python `str.strip(c)`: remove leading and trailing copies of `c`. -/
def pyStrip (c : Char) (s : String) : String :=
  ⟨((s.data.dropWhile (· == c)).reverse.dropWhile (· == c)).reverse⟩

/-- Split a character list at every occurrence of the separator `c`. -/
def splitCharList (c : Char) : List Char → List (List Char)
  | [] => [[]]
  | a :: as =>
      match splitCharList c as with
      | [] => [[]]
      | r :: rs => if a == c then [] :: r :: rs else (a :: r) :: rs

/-- Python `str.split(c)` for a single-character separator. -/
def pySplit (c : Char) (s : String) : List String :=
  (splitCharList c s.data).map String.mk

/-- The source's germline test (line 331): `mutation[6][-1] == '*'`, i.e.
the genotype string's last character is the germline marker. (Python
raises `IndexError` on an empty string; the default character here is
never the marker.) -/
def isGermline (gen : String) : Bool := gen.data.getLastD ' ' == '*'

/-- VAF extraction (lines 337–344): the source computes
`float(mutation[6].strip('*').split(':')[VAF_pos].strip('%'))` when a VAF
position is available; the floating-point conversion is kept symbolic, so
the cleaned numeric token itself is returned. -/
def extractVAF (vafPos : Option Nat) (gen : String) : Option String :=
  match vafPos with
  | none => none
  | some i => some (pyStrip '%' ((pySplit ':' (pyStrip '*' gen)).getD i ""))

/-- One recorded edit on a transcript copy: the arguments the source
passes to `Transcript.edit` (alternate, position, mutation type, mutation
class, VAF). -/
structure EditRecord where
  alt : AltVal
  pos : Nat
  mtype : Char
  mclass : Char
  vaf : Option String
deriving DecidableEq, Repr

/-- Modelled from the spec: one diploid copy held by the external
`Transcript` class (`transcript` module, §4.3 of the spec); its state is
the ordered list of edits applied since the last reset, the unedited
reference carrying no edits. -/
structure TranscriptCopy where
  edits : List EditRecord
deriving DecidableEq, Repr

/-- Modelled from the spec: `Transcript.edit` applies one edit to a copy. -/
def TranscriptCopy.edit (t : TranscriptCopy) (e : EditRecord) : TranscriptCopy :=
  ⟨t.edits ++ [e]⟩

/-- Modelled from the spec: `Transcript.reset(reference=True)` discards
all edits and restores the copy to the unedited reference sequence
(spec §4.3). -/
def TranscriptCopy.reset (_ : TranscriptCopy) : TranscriptCopy := ⟨[]⟩

/-- A fresh copy built from the reference CDS layout, as constructed at
the top of the transcript loop in `get_peptides_from_transcripts`. -/
def referenceCopy : TranscriptCopy := ⟨[]⟩

/-- The edit derived from one haplotype mutation entry (lines 329–355):
`edit(mutation[3], mutation[1], mutation_type=mutation[7],
mutation_class=...)` with class `'G'` iff the genotype string ends in the
germline marker, else `'S'`. -/
def toEditRecord (vafPos : Option Nat) (m : MutEntry) : EditRecord :=
  { alt := m.alt, pos := m.pos, mtype := m.mtype,
    mclass := if isGermline m.gen then 'G' else 'S',
    vaf := extractVAF vafPos m.gen }

/-- Zygosity dispatch for one mutation (lines 345–355): the edit is
applied to copy A iff `mutation[4] == '1'` and, independently, to copy B
iff `mutation[5] == '1'`. -/
def applyMutation (vafPos : Option Nat) (ab : TranscriptCopy × TranscriptCopy)
    (m : MutEntry) : TranscriptCopy × TranscriptCopy :=
  let e := toEditRecord vafPos m
  let a := if m.alleleA == "1" then ab.1.edit e else ab.1
  let b := if m.alleleB == "1" then ab.2.edit e else ab.2
  (a, b)

/-- `somatic_in_haplotype` (lines 327–335): set while looping over the
haplotype whenever some mutation's genotype string lacks the germline
marker. -/
def somaticInHaplotype (ht : List MutEntry) : Bool :=
  ht.any (fun m => !(isGermline m.gen))

/-- `size_list[0]` as passed to `neopeptides` as `min_size`. -/
def minSizeArg (sizeList : List Nat) : Nat := sizeList.headD 0

/-- `size_list[-1]` as passed to `neopeptides` as `max_size`. -/
def maxSizeArg (sizeList : List Nat) : Nat := sizeList.getLastD 0

/-- Signature of the external `Transcript.neopeptides` method (spec
§4.4–4.5): from a copy's edit state, the min/max window sizes, and the
three start-codon flags, to a peptide → metadata-list dictionary. The
metadata tuple type is abstract. -/
abbrev NeopeptidesFn (M : Type) :=
  TranscriptCopy → Nat → Nat → Bool → Bool → Bool → Dict (List M)

/-- Metadata accumulation for one peptide (lines 377–383 and 384–390):
append the transcript id to each metadata tuple and store it under the
peptide unless that exact pair is already present. -/
def storePeptide [DecidableEq M] (tid : String)
    (neo : Dict (List (M × String))) (pep : String) (mds : List M) :
    Dict (List (M × String)) :=
  mds.foldl
    (fun n md =>
      if (md, tid) ∈ dictGet n pep then n else dictAppend n pep (md, tid))
    neo

/-- Accumulation of one copy's peptide dictionary into the global
neoepitope dictionary. -/
def storePeptides [DecidableEq M] (tid : String)
    (neo : Dict (List (M × String))) (peps : Dict (List M)) :
    Dict (List (M × String)) :=
  peps.foldl (fun n p => storePeptide tid n p.1 p.2) neo

/-- State of the per-transcript haplotype loop in
`get_peptides_from_transcripts`: the accumulated neoepitope dictionary and
the two transcript copies. -/
structure PepState (M : Type) where
  neo : Dict (List (M × String))
  copyA : TranscriptCopy
  copyB : TranscriptCopy

/-- One iteration of the haplotype loop (lines 326–392): apply every
mutation's edits according to zygosity; if the haplotype contains a
somatic mutation, extract peptides from both copies with window sizes
`size_list[0]` and `size_list[-1]` and merge them into the accumulator;
finally reset both copies to the reference. -/
def processHaplotype [DecidableEq M] (npf : NeopeptidesFn M)
    (vafPos : Option Nat) (onlyNovelUpstream onlyDownstream onlyReference : Bool)
    (sizeList : List Nat) (tid : String) (st : PepState M)
    (ht : List MutEntry) : PepState M :=
  let ab := ht.foldl (applyMutation vafPos) (st.copyA, st.copyB)
  let neo :=
    if somaticInHaplotype ht then
      let aPeps := npf ab.1 (minSizeArg sizeList) (maxSizeArg sizeList)
        onlyNovelUpstream onlyDownstream onlyReference
      let bPeps := npf ab.2 (minSizeArg sizeList) (maxSizeArg sizeList)
        onlyNovelUpstream onlyDownstream onlyReference
      storePeptides tid (storePeptides tid st.neo aPeps) bPeps
    else st.neo
  { neo := neo, copyA := ab.1.reset, copyB := ab.2.reset }

/-- `get_peptides_from_transcripts`: for each affected transcript, build
two fresh reference copies and fold the transcript's haplotypes through
`processHaplotype`, accumulating one global neoepitope dictionary. -/
def getPeptidesFromTranscripts [DecidableEq M] (npf : NeopeptidesFn M)
    (vafPos : Option Nat) (relevantTranscripts : Dict (List (List MutEntry)))
    (onlyNovelUpstream onlyDownstream onlyReference : Bool)
    (sizeList : List Nat) : Dict (List (M × String)) :=
  relevantTranscripts.foldl
    (fun neo p =>
      (p.2.foldl
        (processHaplotype npf vafPos onlyNovelUpstream onlyDownstream
          onlyReference sizeList p.1)
        { neo := neo, copyA := referenceCopy, copyB := referenceCopy }).neo)
    []

/-- Python string comparison `a < b`: lexicographic on code points. -/
def pyStrLtChars : List Char → List Char → Bool
  | [], [] => false
  | [], _ :: _ => true
  | _ :: _, [] => false
  | a :: as, b :: bs =>
      if a.toNat < b.toNat then true
      else if b.toNat < a.toNat then false
      else pyStrLtChars as bs

/-- The total preorder Python `list.sort()` uses on strings. -/
def pyStrLE (a b : String) : Prop := pyStrLtChars b.data a.data = false

instance : DecidableRel pyStrLE := fun a b =>
  Bool.decEq (pyStrLtChars b.data a.data) false

/-- Python `int(s)` on a decimal-digit string. -/
def pyInt (s : String) : Nat :=
  s.data.foldl (fun n c => n * 10 + (c.toNat - 48)) 0

/-- The k-mer size parsing in `main` (lines 1038–1042): if the argument
contains a comma, split on commas, sort the pieces as strings, then
convert each piece to an integer in place. Without a comma `size_list` is
never assigned (`none` here; the later use would raise `NameError`). -/
def parseSizeList (kmerSize : String) : Option (List Nat) :=
  if kmerSize.data.contains ',' then
    some (((pySplit ',' kmerSize).insertionSort pyStrLE).map pyInt)
  else
    none

/-- The `--upstream_atgs` dispatch in `main` (lines 1050–1068): map the
policy string to `(only_novel_upstream, only_downstream, only_reference)`,
or raise `RuntimeError` for any other value. -/
def establishAtgHandling (upstreamAtgs : String) :
    Except String (Bool × Bool × Bool) :=
  if upstreamAtgs == "novel" then .ok (true, false, false)
  else if upstreamAtgs == "all" then .ok (false, false, false)
  else if upstreamAtgs == "none" then .ok (false, true, false)
  else if upstreamAtgs == "reference" then .ok (false, false, true)
  else .error "--upstream_atgs must be one of {novel, all, none, reference}"

/-- Tail of `main` from haplotype discovery onward (lines 1046–1076):
find the transcripts the haplotypes overlap, then validate the start-codon
policy, and only afterwards apply mutations to transcripts and extract
neoepitopes. -/
def mainPipeline [DecidableEq M] (npf : NeopeptidesFn M)
    (query : String → Nat → Nat → List String) (lines : List HapcutLine)
    (vafPos : Option Nat) (upstreamAtgs : String) (sizeList : List Nat) :
    Except String (Dict (List (M × String))) :=
  let relevantTranscripts := processHaplotypes query lines
  match establishAtgHandling upstreamAtgs with
  | .error e => .error e
  | .ok (onu, od, orf) =>
      .ok (getPeptidesFromTranscripts npf vafPos relevantTranscripts
        onu od orf sizeList)

theorem pyDrop_length (n : Nat) (s : String) :
    (pyDrop n s).length = s.length - n := by
  show (s.data.drop n).length = s.data.length - n
  exact List.length_drop n s.data

theorem take_append_pyDrop (n : Nat) (s : String) :
    s.data.take n ++ (pyDrop n s).data = s.data :=
  List.take_append_drop n s.data

/-- C1: every mutation line is classified by comparing reference and
alternate allele lengths: equal lengths yield a substitution `'V'`;
a longer reference yields a deletion `'D'` storing deletion length
`len(ref) − len(alt)`; a shorter reference yields an insertion `'I'`
whose stored alternate string has length `len(alt) − len(ref)`. -/
theorem classification_by_allele_lengths (pos : Nat) (ref alt : String) :
    (ref.length = alt.length → (classifyMutation pos ref alt).mtype = 'V')
    ∧ (ref.length > alt.length →
        (classifyMutation pos ref alt).mtype = 'D'
        ∧ (classifyMutation pos ref alt).alt = .size (ref.length - alt.length))
    ∧ (ref.length < alt.length →
        (classifyMutation pos ref alt).mtype = 'I'
        ∧ ∃ s, (classifyMutation pos ref alt).alt = .str s
            ∧ s.length = alt.length - ref.length) := by
  refine ⟨fun h => ?_, fun h => ?_, fun h => ?_⟩
  · simp [classifyMutation, h]
  · have h1 : ref.length ≠ alt.length := Nat.ne_of_gt h
    simp [classifyMutation, h1, h]
  · have h1 : ref.length ≠ alt.length := Nat.ne_of_lt h
    have h2 : ¬ ref.length > alt.length := Nat.not_lt.mpr (Nat.le_of_lt h)
    refine ⟨by simp [classifyMutation, h1, h2], ⟨pyDrop ref.length alt, ?_, ?_⟩⟩
    · simp [classifyMutation, h1, h2]
    · exact pyDrop_length ref.length alt

/-- Witness for C1 at one substitution, one deletion, one insertion. -/
theorem classification_by_allele_lengths_witness :
    (classifyMutation 100 "A" "G").mtype = 'V'
    ∧ ((classifyMutation 100 "AGT" "A").mtype = 'D'
        ∧ (classifyMutation 100 "AGT" "A").alt = .size 2)
    ∧ ((classifyMutation 100 "A" "AGT").mtype = 'I'
        ∧ ∃ s, (classifyMutation 100 "A" "AGT").alt = .str s ∧ s.length = 2) :=
  ⟨(classification_by_allele_lengths 100 "A" "G").1 (by decide),
   (classification_by_allele_lengths 100 "AGT" "A").2.1 (by decide),
   (classification_by_allele_lengths 100 "A" "AGT").2.2 (by decide)⟩

/-- C2: a deletion is stored with anchor position
`pos + (len(ref) − deletion length)`, the integer deletion length as
alternate, and span `[anchor, anchor + deletion length)`; an insertion is
anchored at the original position, stores as alternate the suffix of the
alternate allele after its length-`len(ref)` prefix, and spans
`[anchor, anchor + 1)`. -/
theorem deletion_insertion_record_shape (pos : Nat) (ref alt : String) :
    (ref.length > alt.length →
        (classifyMutation pos ref alt).pos
            = pos + (ref.length - (ref.length - alt.length))
        ∧ (classifyMutation pos ref alt).alt = .size (ref.length - alt.length)
        ∧ (classifyMutation pos ref alt).ePos
            = (classifyMutation pos ref alt).pos + (ref.length - alt.length))
    ∧ (ref.length < alt.length →
        (classifyMutation pos ref alt).pos = pos
        ∧ ∃ s, (classifyMutation pos ref alt).alt = .str s
            ∧ alt.data.take ref.length ++ s.data = alt.data
        ∧ (classifyMutation pos ref alt).ePos = pos + 1) := by
  constructor
  · intro h
    have h1 : ref.length ≠ alt.length := Nat.ne_of_gt h
    refine ⟨by simp [classifyMutation, h1, h], by simp [classifyMutation, h1, h],
      by simp [classifyMutation, h1, h]⟩
  · intro h
    have h1 : ref.length ≠ alt.length := Nat.ne_of_lt h
    have h2 : ¬ ref.length > alt.length := Nat.not_lt.mpr (Nat.le_of_lt h)
    refine ⟨by simp [classifyMutation, h1, h2],
      ⟨pyDrop ref.length alt, by simp [classifyMutation, h1, h2],
        take_append_pyDrop ref.length alt,
        by simp [classifyMutation, h1, h2]⟩⟩

/-- Witness for C2 at one deletion and one insertion. -/
theorem deletion_insertion_record_shape_witness :
    ((classifyMutation 100 "AGT" "A").pos = 100 + (3 - 2)
      ∧ (classifyMutation 100 "AGT" "A").alt = .size 2
      ∧ (classifyMutation 100 "AGT" "A").ePos
          = (classifyMutation 100 "AGT" "A").pos + 2)
    ∧ ((classifyMutation 100 "A" "AGT").pos = 100
      ∧ ∃ s, (classifyMutation 100 "A" "AGT").alt = .str s
          ∧ "AGT".data.take 1 ++ s.data = "AGT".data
      ∧ (classifyMutation 100 "A" "AGT").ePos = 100 + 1) :=
  ⟨(deletion_insertion_record_shape 100 "AGT" "A").1 (by decide),
   (deletion_insertion_record_shape 100 "A" "AGT").2 (by decide)⟩

theorem dictGet_nil (k : String) : dictGet ([] : Dict (List α)) k = [] := rfl

theorem dictGet_cons (k₀ : String) (l₀ : List α) (rest : Dict (List α))
    (k : String) :
    dictGet ((k₀, l₀) :: rest) k = if k₀ = k then l₀ else dictGet rest k := by
  by_cases h : k₀ = k
  · have hbeq : (k₀ == k) = true := beq_iff_eq.mpr h
    simp [dictGet, List.find?, hbeq, h]
  · have hbeq : (k₀ == k) = false := beq_eq_false_iff_ne.mpr h
    simp [dictGet, List.find?, hbeq, h]

theorem dictGet_dictAppend (d : Dict (List α)) (k : String) (v : α)
    (k' : String) :
    dictGet (dictAppend d k v) k'
      = dictGet d k' ++ if k' = k then [v] else [] := by
  induction d with
  | nil =>
      show dictGet [(k, [v])] k' = dictGet [] k' ++ if k' = k then [v] else []
      rw [dictGet_cons, dictGet_nil]
      by_cases h : k' = k
      · simp [h]
      · simp [h, Ne.symm h]
  | cons p rest ih =>
      obtain ⟨k₀, l₀⟩ := p
      by_cases h₀ : k₀ = k
      · have hbeq : (k₀ == k) = true := beq_iff_eq.mpr h₀
        have hstep : dictAppend ((k₀, l₀) :: rest) k v
            = (k₀, l₀ ++ [v]) :: rest := by
          simp [dictAppend, hbeq]
        rw [hstep, dictGet_cons, dictGet_cons]
        subst h₀
        by_cases h' : k₀ = k'
        · subst h'
          simp
        · simp [h', Ne.symm h']
      · have hbeq : (k₀ == k) = false := beq_eq_false_iff_ne.mpr h₀
        have hstep : dictAppend ((k₀, l₀) :: rest) k v
            = (k₀, l₀) :: dictAppend rest k v := by
          simp [dictAppend, hbeq]
        rw [hstep, dictGet_cons, dictGet_cons]
        by_cases h' : k₀ = k'
        · have hk'k : ¬ k' = k := fun e => h₀ (h'.trans e)
          simp [h', hk'k]
        · simp [h', ih]

/-- Per-key effect of the terminator loop of `process_haplotypes`: folding
the sort-and-append over the block accumulator appends, at every key,
exactly what folding it over an empty dictionary produces. -/
theorem dictGet_foldl_sortAppend (bt : List (String × List MutEntry))
    (d : Dict (List (List MutEntry))) (k : String) :
    dictGet (bt.foldl
        (fun a p => dictAppend a p.1 (p.2.insertionSort posLE)) d) k
      = dictGet d k
        ++ dictGet (bt.foldl
            (fun a p => dictAppend a p.1 (p.2.insertionSort posLE)) []) k := by
  induction bt generalizing d with
  | nil => simp [dictGet_nil]
  | cons p rest ih =>
      simp only [List.foldl_cons]
      rw [ih (dictAppend d p.1 (p.2.insertionSort posLE)),
        ih (dictAppend [] p.1 (p.2.insertionSort posLE)),
        dictGet_dictAppend, dictGet_dictAppend, dictGet_nil]
      by_cases h : k = p.1 <;> simp [h]

theorem mem_dictGet_foldl_sortAppend (bt : List (String × List MutEntry))
    (d : Dict (List (List MutEntry))) (k : String) (x : List MutEntry)
    (h : x ∈ dictGet (bt.foldl
        (fun a p => dictAppend a p.1 (p.2.insertionSort posLE)) d) k) :
    x ∈ dictGet d k ∨ ∃ p ∈ bt, x = p.2.insertionSort posLE := by
  induction bt generalizing d with
  | nil => exact Or.inl h
  | cons p rest ih =>
      simp only [List.foldl_cons] at h
      rcases ih (dictAppend d p.1 (p.2.insertionSort posLE)) h
        with h' | ⟨q, hq, hx⟩
      · rw [dictGet_dictAppend] at h'
        rcases List.mem_append.mp h' with h'' | h''
        · exact Or.inl h''
        · refine Or.inr ⟨p, List.mem_cons_self p rest, ?_⟩
          by_cases hk : k = p.1
          · simpa [hk] using h''
          · simp [hk] at h''
      · exact Or.inr ⟨q, List.mem_cons_of_mem p hq, hx⟩

/-- Emitted haplotypes are insensitive to the already-accumulated
`affected_transcripts` dictionary: per key, folding further lines appends
exactly what folding them against an empty dictionary would produce. -/
theorem affected_decomposition (query : String → Nat → Nat → List String)
    (lines : List HapcutLine) :
    ∀ (aff : Dict (List (List MutEntry))) (bt : Dict (List MutEntry))
      (k : String),
      dictGet (List.foldl (phStep query) ⟨aff, bt⟩ lines).affected k
        = dictGet aff k
          ++ dictGet (List.foldl (phStep query) ⟨[], bt⟩ lines).affected k := by
  induction lines with
  | nil => intro aff bt k; simp [dictGet_nil]
  | cons line rest ih =>
      intro aff bt k
      cases line with
      | blockHeader => simpa [phStep] using ih aff bt k
      | terminator =>
          simp only [List.foldl_cons, phStep]
          rw [ih (bt.foldl
              (fun a p => dictAppend a p.1 (p.2.insertionSort posLE)) aff) [] k,
            ih (bt.foldl
              (fun a p => dictAppend a p.1 (p.2.insertionSort posLE)) []) [] k,
            dictGet_foldl_sortAppend bt aff k, List.append_assoc]
      | mutation tokenA tokenB chrom pos ref alt gen =>
          simp only [List.foldl_cons, phStep]
          exact ih aff _ k

/-- Sortedness invariant: every haplotype stored in `affected_transcripts`
is sorted by ascending position. -/
theorem sorted_invariant (query : String → Nat → Nat → List String)
    (lines : List HapcutLine) :
    ∀ (st : PHState),
      (∀ (tid : String) (h : List MutEntry),
        h ∈ dictGet st.affected tid → List.Pairwise posLE h) →
      ∀ (tid : String) (h : List MutEntry),
        h ∈ dictGet (List.foldl (phStep query) st lines).affected tid →
        List.Pairwise posLE h := by
  induction lines with
  | nil => intro st hst; exact hst
  | cons line rest ih =>
      intro st hst tid h hmem
      rw [List.foldl_cons] at hmem
      cases line with
      | blockHeader => exact ih st hst tid h hmem
      | terminator =>
          refine ih (phStep query st .terminator) ?_ tid h hmem
          intro tid' h' hmem'
          rcases mem_dictGet_foldl_sortAppend st.blockT st.affected tid' h'
              hmem' with h'' | ⟨p, _, hx⟩
          · exact hst tid' h' h''
          · rw [hx]
            exact List.sorted_insertionSort posLE p.2
      | mutation tokenA tokenB chrom pos ref alt gen =>
          exact ih (phStep query st
            (.mutation tokenA tokenB chrom pos ref alt gen)) hst tid h hmem

/-- C5: at every block terminator each transcript's accumulated mutations
are emitted as one position-sorted haplotype and the block accumulator is
cleared: every stored haplotype is sorted by non-decreasing position, and
the haplotypes of a stream split at a terminator are exactly those of the
part up to the terminator followed by those of the remainder processed on
its own — so no mutation of one block reaches a later block's haplotype. -/
theorem block_emission_sorted_and_cleared
    (query : String → Nat → Nat → List String) :
    (∀ (lines : List HapcutLine) (tid : String) (h : List MutEntry),
        h ∈ dictGet (processHaplotypes query lines) tid →
        List.Pairwise posLE h)
    ∧ ∀ (l₁ l₂ : List HapcutLine) (tid : String),
        dictGet (processHaplotypes query
            (l₁ ++ HapcutLine.terminator :: l₂)) tid
          = dictGet (processHaplotypes query
              (l₁ ++ [HapcutLine.terminator])) tid
            ++ dictGet (processHaplotypes query l₂) tid := by
  constructor
  · intro lines tid h hmem
    refine sorted_invariant query lines _ ?_ tid h hmem
    intro tid' h' hmem'
    simp [dictGet_nil] at hmem'
  · intro l₁ l₂ tid
    unfold processHaplotypes
    have hsplit : l₁ ++ HapcutLine.terminator :: l₂
        = (l₁ ++ [HapcutLine.terminator]) ++ l₂ := by simp
    rw [hsplit, List.foldl_append]
    have hblock :
        (List.foldl (phStep query) { affected := [], blockT := [] }
            (l₁ ++ [HapcutLine.terminator])).blockT = [] := by
      rw [List.foldl_append]
      simp [phStep]
    set st₁ := List.foldl (phStep query) { affected := [], blockT := [] }
      (l₁ ++ [HapcutLine.terminator]) with hst₁
    have hsteta : st₁ = ⟨st₁.affected, []⟩ := by
      rw [← hblock]
    rw [hsteta, affected_decomposition query l₂ st₁.affected [] tid]

/-- Witness for C5: the haplotype emitted for a two-mutation block given
out of genomic order is stored position-sorted. -/
theorem block_emission_sorted_and_cleared_witness :
    letI lines : List HapcutLine :=
      [ .mutation "1" "0" "c" 200 "A" "G" "0/1",
        .mutation "0" "1" "c" 100 "T" "C" "0/1",
        .terminator ]
    List.Pairwise posLE
      ((dictGet (processHaplotypes (fun _ _ _ => ["t"]) lines) "t").headD []) :=
  (block_emission_sorted_and_cleared (fun _ _ _ => ["t"])).1
    [ .mutation "1" "0" "c" 200 "A" "G" "0/1",
      .mutation "0" "1" "c" 100 "T" "C" "0/1",
      .terminator ] "t" _ (by decide)

/-- Lines containing no block terminator never change the emitted
haplotype dictionary. -/
theorem no_terminator_affected (query : String → Nat → Nat → List String)
    (lines : List HapcutLine)
    (h : ∀ l ∈ lines, l ≠ HapcutLine.terminator) :
    ∀ st : PHState,
      (List.foldl (phStep query) st lines).affected = st.affected := by
  induction lines with
  | nil => intro st; rfl
  | cons line rest ih =>
      intro st
      have hrest : ∀ l ∈ rest, l ≠ HapcutLine.terminator :=
        fun l hl => h l (List.mem_cons_of_mem line hl)
      cases line with
      | blockHeader => simpa [phStep] using ih hrest st
      | terminator =>
          exact absurd rfl (h HapcutLine.terminator (List.mem_cons_self _ _))
      | mutation tokenA tokenB chrom pos ref alt gen =>
          simpa [phStep] using ih hrest _

/-- C10: haplotypes are emitted only at block-terminator lines; a trailing
block not followed by a terminator is silently discarded — the returned
mapping is exactly that of the stream without the trailing lines. -/
theorem trailing_block_discarded (query : String → Nat → Nat → List String)
    (pfx sfx : List HapcutLine)
    (h : ∀ l ∈ sfx, l ≠ HapcutLine.terminator) :
    processHaplotypes query (pfx ++ sfx) = processHaplotypes query pfx := by
  unfold processHaplotypes
  rw [List.foldl_append]
  exact no_terminator_affected query sfx h _

/-- Witness for C10: a trailing mutation line after the last terminator
leaves the result unchanged. -/
theorem trailing_block_discarded_witness :
    processHaplotypes (fun _ _ _ => ["t"])
        ([ .mutation "1" "0" "c" 100 "A" "G" "0/1", .terminator ]
          ++ [ .mutation "1" "1" "c" 300 "T" "C" "0/1" ])
      = processHaplotypes (fun _ _ _ => ["t"])
          [ .mutation "1" "0" "c" 100 "A" "G" "0/1", .terminator ] :=
  trailing_block_discarded (fun _ _ _ => ["t"])
    [ .mutation "1" "0" "c" 100 "A" "G" "0/1", .terminator ]
    [ .mutation "1" "1" "c" 300 "T" "C" "0/1" ] (by decide)

/-- C4: folding a haplotype's mutations applies the derived edit to copy A
exactly for the mutations whose copy-A flag is `'1'`, in order, and
independently to copy B for those whose copy-B flag is `'1'`; in
particular a mutation flagged only for copy A contributes no edit to
copy B. -/
theorem zygosity_dispatch (vafPos : Option Nat) (ht : List MutEntry)
    (a b : TranscriptCopy) :
    ((ht.foldl (applyMutation vafPos) (a, b)).1.edits
        = a.edits
          ++ (ht.filter (fun m => m.alleleA == "1")).map (toEditRecord vafPos))
    ∧ ((ht.foldl (applyMutation vafPos) (a, b)).2.edits
        = b.edits
          ++ (ht.filter (fun m => m.alleleB == "1")).map
              (toEditRecord vafPos)) := by
  induction ht generalizing a b with
  | nil => simp
  | cons m rest ih =>
      obtain ⟨ihA, ihB⟩ := ih
        (if m.alleleA == "1" then a.edit (toEditRecord vafPos m) else a)
        (if m.alleleB == "1" then b.edit (toEditRecord vafPos m) else b)
      rw [List.foldl_cons]
      have happ : applyMutation vafPos (a, b) m
          = (if m.alleleA == "1" then a.edit (toEditRecord vafPos m) else a,
             if m.alleleB == "1" then b.edit (toEditRecord vafPos m) else b) :=
        rfl
      rw [happ]
      constructor
      · rw [ihA, List.filter_cons]
        by_cases hA : (m.alleleA == "1") = true
        · simp [hA, TranscriptCopy.edit]
        · rw [Bool.not_eq_true] at hA
          simp [hA]
      · rw [ihB, List.filter_cons]
        by_cases hB : (m.alleleB == "1") = true
        · simp [hB, TranscriptCopy.edit]
        · rw [Bool.not_eq_true] at hB
          simp [hB]

/-- A haplotype consisting solely of germline mutations passes the
accumulated neoepitope dictionary through untouched. -/
theorem processHaplotype_germline_neo {M : Type} [DecidableEq M]
    (npf : NeopeptidesFn M) (vafPos : Option Nat) (onu od orf : Bool)
    (sizeList : List Nat) (tid : String) (st : PepState M)
    (ht : List MutEntry) (h : ∀ m ∈ ht, isGermline m.gen = true) :
    (processHaplotype npf vafPos onu od orf sizeList tid st ht).neo
      = st.neo := by
  have hsom : somaticInHaplotype ht = false := by
    unfold somaticInHaplotype
    rw [List.any_eq_false]
    intro m hm
    simp [h m hm]
  simp [processHaplotype, hsom]

/-- Folding only germline haplotypes leaves the accumulator unchanged. -/
theorem foldl_germline_neo {M : Type} [DecidableEq M]
    (npf : NeopeptidesFn M) (vafPos : Option Nat) (onu od orf : Bool)
    (sizeList : List Nat) (tid : String) (haps : List (List MutEntry)) :
    ∀ (st : PepState M),
      (∀ ht ∈ haps, ∀ m ∈ ht, isGermline m.gen = true) →
      (haps.foldl (processHaplotype npf vafPos onu od orf sizeList tid)
          st).neo = st.neo := by
  induction haps with
  | nil => intro st _; rfl
  | cons ht rest ih =>
      intro st h
      rw [List.foldl_cons]
      rw [ih _ (fun ht' hht' m hm =>
        h ht' (List.mem_cons_of_mem ht hht') m hm)]
      exact processHaplotype_germline_neo npf vafPos onu od orf sizeList tid
        st ht (h ht (List.mem_cons_self ht rest))

/-- C3: a haplotype all of whose mutations are germline (genotype string
ending in the marker `'*'`) triggers no peptide extraction and leaves the
returned mapping unchanged; a transcript whose haplotypes contain no
somatic mutation contributes nothing; a stream with no somatic mutation
at all yields the empty mapping. -/
theorem germline_only_excluded {M : Type} [DecidableEq M]
    (npf : NeopeptidesFn M) (vafPos : Option Nat) (onu od orf : Bool)
    (sizeList : List Nat) :
    (∀ (tid : String) (st : PepState M) (ht : List MutEntry),
        (∀ m ∈ ht, isGermline m.gen = true) →
        (processHaplotype npf vafPos onu od orf sizeList tid st ht).neo
          = st.neo)
    ∧ (∀ (tid : String) (neo : Dict (List (M × String)))
        (haps : List (List MutEntry)),
        (∀ ht ∈ haps, ∀ m ∈ ht, isGermline m.gen = true) →
        (haps.foldl (processHaplotype npf vafPos onu od orf sizeList tid)
            { neo := neo, copyA := referenceCopy,
              copyB := referenceCopy }).neo = neo)
    ∧ (∀ (rt : Dict (List (List MutEntry))),
        (∀ p ∈ rt, ∀ ht ∈ p.2, ∀ m ∈ ht, isGermline m.gen = true) →
        getPeptidesFromTranscripts npf vafPos rt onu od orf sizeList
          = []) := by
  refine ⟨processHaplotype_germline_neo npf vafPos onu od orf sizeList,
    fun tid neo haps h =>
      foldl_germline_neo npf vafPos onu od orf sizeList tid haps _ h, ?_⟩
  intro rt h
  unfold getPeptidesFromTranscripts
  have hgen : ∀ (rt' : Dict (List (List MutEntry)))
      (neo : Dict (List (M × String))),
      (∀ p ∈ rt', ∀ ht ∈ p.2, ∀ m ∈ ht, isGermline m.gen = true) →
      rt'.foldl
        (fun neo p =>
          (p.2.foldl
            (processHaplotype npf vafPos onu od orf sizeList p.1)
            { neo := neo, copyA := referenceCopy,
              copyB := referenceCopy }).neo) neo = neo := by
    intro rt'
    induction rt' with
    | nil => intro neo _; rfl
    | cons p rest ih =>
        intro neo h'
        rw [List.foldl_cons]
        rw [foldl_germline_neo npf vafPos onu od orf sizeList p.1 p.2 _
          (h' p (List.mem_cons_self p rest))]
        exact ih neo (fun q hq => h' q (List.mem_cons_of_mem p hq))
  exact hgen rt [] h

/-- Witness for C3: one germline-only haplotype under a peptide extractor
that would report a peptide leaves the mapping empty. -/
theorem germline_only_excluded_witness :
    getPeptidesFromTranscripts (M := Nat) (fun _ _ _ _ _ _ => [("PEP", [0])])
        none
        [("t", [[{ chrom := "c", pos := 100, ref := "A", alt := .str "G",
                   alleleA := "1", alleleB := "1", gen := "0/1:*",
                   mtype := 'V' }]])]
        false false true [8, 8] = [] :=
  (germline_only_excluded (M := Nat) (fun _ _ _ _ _ _ => [("PEP", [0])])
      none false false true [8, 8]).2.2
    [("t", [[{ chrom := "c", pos := 100, ref := "A", alt := .str "G",
               alleleA := "1", alleleB := "1", gen := "0/1:*",
               mtype := 'V' }]])]
    (by decide)

/-- The inner metadata loop preserves duplicate-freeness of every
peptide's metadata list. -/
theorem storePeptide_nodup {M : Type} [DecidableEq M] (tid : String)
    (pep : String) (mds : List M) :
    ∀ (neo : Dict (List (M × String))),
      (∀ p, (dictGet neo p).Nodup) →
      ∀ p, (dictGet (storePeptide tid neo pep mds) p).Nodup := by
  induction mds with
  | nil => intro neo h; exact h
  | cons md rest ih =>
      intro neo h
      show ∀ p, (dictGet (storePeptide tid
        (if (md, tid) ∈ dictGet neo pep then neo
         else dictAppend neo pep (md, tid)) pep rest) p).Nodup
      apply ih
      intro p
      by_cases hmem : (md, tid) ∈ dictGet neo pep
      · simpa [hmem] using h p
      · rw [if_neg hmem, dictGet_dictAppend]
        by_cases hp : p = pep
        · subst hp
          simp only [if_pos rfl]
          rw [List.nodup_append]
          exact ⟨h p, List.nodup_singleton _,
            fun x hx hx' => hmem ((List.mem_singleton.mp hx') ▸ hx)⟩
        · simpa [hp] using h p

/-- Folding one copy's peptide dictionary into the accumulator preserves
duplicate-freeness. -/
theorem storePeptides_nodup {M : Type} [DecidableEq M] (tid : String)
    (peps : Dict (List M)) :
    ∀ (neo : Dict (List (M × String))),
      (∀ p, (dictGet neo p).Nodup) →
      ∀ p, (dictGet (storePeptides tid neo peps) p).Nodup := by
  induction peps with
  | nil => intro neo h; exact h
  | cons q rest ih =>
      intro neo h
      show ∀ p, (dictGet (storePeptides tid
        (storePeptide tid neo q.1 q.2) rest) p).Nodup
      exact ih _ (storePeptide_nodup tid q.1 q.2 neo h)

/-- Every step of the haplotype loop preserves duplicate-freeness. -/
theorem processHaplotype_nodup {M : Type} [DecidableEq M]
    (npf : NeopeptidesFn M) (vafPos : Option Nat) (onu od orf : Bool)
    (sizeList : List Nat) (tid : String) (st : PepState M)
    (ht : List MutEntry) (h : ∀ p, (dictGet st.neo p).Nodup) :
    ∀ p, (dictGet
      (processHaplotype npf vafPos onu od orf sizeList tid st ht).neo
        p).Nodup := by
  unfold processHaplotype
  by_cases hsom : somaticInHaplotype ht = true
  · simp only [hsom, if_true]
    exact storePeptides_nodup tid _ _ (storePeptides_nodup tid _ _ h)
  · rw [Bool.not_eq_true] at hsom
    simpa [hsom] using h

/-- C6: `(peptide, metadata-with-transcript-id)` pairs are deduplicated:
merging a copy's peptides preserves the absence of duplicate metadata
tuples, and every peptide of the returned mapping has a duplicate-free
metadata list. -/
theorem metadata_deduplicated {M : Type} [DecidableEq M] :
    (∀ (tid : String) (neo : Dict (List (M × String)))
        (peps : Dict (List M)),
        (∀ p, (dictGet neo p).Nodup) →
        ∀ p, (dictGet (storePeptides tid neo peps) p).Nodup)
    ∧ ∀ (npf : NeopeptidesFn M) (vafPos : Option Nat)
        (rt : Dict (List (List MutEntry))) (onu od orf : Bool)
        (sizeList : List Nat) (p : String),
        (dictGet (getPeptidesFromTranscripts npf vafPos rt onu od orf
            sizeList) p).Nodup := by
  refine ⟨fun tid neo peps h => storePeptides_nodup tid peps neo h, ?_⟩
  intro npf vafPos rt onu od orf sizeList
  unfold getPeptidesFromTranscripts
  have hfold : ∀ (haps : List (List MutEntry)) (tid : String)
      (st : PepState M), (∀ p, (dictGet st.neo p).Nodup) →
      ∀ p, (dictGet
        (haps.foldl (processHaplotype npf vafPos onu od orf sizeList tid)
          st).neo p).Nodup := by
    intro haps tid
    induction haps with
    | nil => intro st h; exact h
    | cons ht rest ih =>
        intro st h
        rw [List.foldl_cons]
        exact ih _ (processHaplotype_nodup npf vafPos onu od orf sizeList
          tid st ht h)
  have hrt : ∀ (rt' : Dict (List (List MutEntry)))
      (neo : Dict (List (M × String))),
      (∀ p, (dictGet neo p).Nodup) →
      ∀ p, (dictGet (rt'.foldl
        (fun neo p =>
          (p.2.foldl
            (processHaplotype npf vafPos onu od orf sizeList p.1)
            { neo := neo, copyA := referenceCopy,
              copyB := referenceCopy }).neo) neo) p).Nodup := by
    intro rt'
    induction rt' with
    | nil => intro neo h; exact h
    | cons q rest ih =>
        intro neo h
        rw [List.foldl_cons]
        exact ih _ (hfold q.2 q.1
          { neo := neo, copyA := referenceCopy, copyB := referenceCopy } h)
  exact hrt rt [] (fun p => by rw [dictGet_nil]; exact List.nodup_nil)

/-- Witness for C6: merging a peptide dictionary that itself repeats a
metadata tuple leaves exactly one stored copy. -/
theorem metadata_deduplicated_witness :
    (dictGet (storePeptides (M := Nat) "t" [] [("PEP", [0, 0])])
      "PEP").Nodup :=
  (metadata_deduplicated (M := Nat)).1 "t" [] [("PEP", [0, 0])]
    (fun p => by rw [dictGet_nil]; exact List.nodup_nil) "PEP"

/-- Both copies leave every haplotype iteration reset to the unedited
reference. -/
theorem foldl_copies_reference {M : Type} [DecidableEq M]
    (npf : NeopeptidesFn M) (vafPos : Option Nat) (onu od orf : Bool)
    (sizeList : List Nat) (tid : String) (hts : List (List MutEntry)) :
    ∀ (st : PepState M), st.copyA = referenceCopy →
      st.copyB = referenceCopy →
      List.foldl (processHaplotype npf vafPos onu od orf sizeList tid) st hts
        = { neo := (List.foldl
              (processHaplotype npf vafPos onu od orf sizeList tid)
              st hts).neo,
            copyA := referenceCopy, copyB := referenceCopy } := by
  induction hts with
  | nil =>
      intro st hA hB
      obtain ⟨n, ca, cb⟩ := st
      simp only at hA hB
      rw [hA, hB]
      rfl
  | cons ht rest ih =>
      intro st hA hB
      rw [List.foldl_cons]
      exact ih (processHaplotype npf vafPos onu od orf sizeList tid st ht)
        rfl rfl

/-- C7: after each haplotype of the per-transcript loop both copies are
reset to the unedited reference state, so processing a further batch of
haplotypes starts from the clean reference pair regardless of the edit
history accumulated by the earlier batch. -/
theorem reset_between_haplotypes {M : Type} [DecidableEq M]
    (npf : NeopeptidesFn M) (vafPos : Option Nat) (onu od orf : Bool)
    (sizeList : List Nat) (tid : String) :
    (∀ (st : PepState M) (ht : List MutEntry),
        (processHaplotype npf vafPos onu od orf sizeList tid st ht).copyA
            = referenceCopy
        ∧ (processHaplotype npf vafPos onu od orf sizeList tid st ht).copyB
            = referenceCopy)
    ∧ ∀ (neo : Dict (List (M × String))) (hts₁ hts₂ : List (List MutEntry)),
        List.foldl (processHaplotype npf vafPos onu od orf sizeList tid)
            { neo := neo, copyA := referenceCopy, copyB := referenceCopy }
            (hts₁ ++ hts₂)
          = List.foldl (processHaplotype npf vafPos onu od orf sizeList tid)
              { neo := (List.foldl
                    (processHaplotype npf vafPos onu od orf sizeList tid)
                    { neo := neo, copyA := referenceCopy,
                      copyB := referenceCopy } hts₁).neo,
                copyA := referenceCopy, copyB := referenceCopy } hts₂ := by
  refine ⟨fun st ht => ⟨rfl, rfl⟩, ?_⟩
  intro neo hts₁ hts₂
  rw [List.foldl_append]
  rw [foldl_copies_reference npf vafPos onu od orf sizeList tid hts₁
    { neo := neo, copyA := referenceCopy, copyB := referenceCopy } rfl rfl]

/-- C8 evaluated at the failing input: `main` sorts the comma-separated
k-mer sizes as strings before converting them to integers, so for
`--kmer_size 8,9,10` the size list becomes `[10, 8, 9]` and
`get_peptides_from_transcripts` passes `min_size = size_list[0] = 10` and
`max_size = size_list[-1] = 9` to `neopeptides`, although the minimum and
maximum of the supplied integers are 8 and 10. -/
theorem size_bounds_not_min_max :
    parseSizeList "8,9,10" = some [10, 8, 9]
    ∧ minSizeArg ((parseSizeList "8,9,10").getD []) = 10
    ∧ maxSizeArg ((parseSizeList "8,9,10").getD []) = 9
    ∧ ((parseSizeList "8,9,10").getD []).min? = some 8
    ∧ ((parseSizeList "8,9,10").getD []).max? = some 10 := by decide

/-- C9: an unsupported `--upstream_atgs` value makes the pipeline return
the fatal configuration error, uniformly in every downstream input: the
result does not depend on the haplotype stream, the interval query, the
peptide extractor, the VAF position, or the size list, so no transcript is
edited, translated or fed to peptide extraction. -/
theorem invalid_policy_fatal {M : Type} [DecidableEq M]
    (upstreamAtgs : String)
    (h : upstreamAtgs ∉ (["novel", "all", "none", "reference"] :
        List String)) :
    ∀ (npf : NeopeptidesFn M) (query : String → Nat → Nat → List String)
      (lines : List HapcutLine) (vafPos : Option Nat) (sizeList : List Nat),
      mainPipeline npf query lines vafPos upstreamAtgs sizeList
        = Except.error
            "--upstream_atgs must be one of {novel, all, none, reference}" := by
  intro npf query lines vafPos sizeList
  simp only [List.mem_cons, List.not_mem_nil, or_false, not_or] at h
  obtain ⟨h₁, h₂, h₃, h₄⟩ := h
  simp [mainPipeline, establishAtgHandling, h₁, h₂, h₃, h₄]

/-- Witness for C9: the unsupported policy string `"bogus"` yields the
configuration error on a concrete pipeline instance. -/
theorem invalid_policy_fatal_witness :
    mainPipeline (M := Nat) (fun _ _ _ _ _ _ => []) (fun _ _ _ => [])
        [] none "bogus" []
      = Except.error
          "--upstream_atgs must be one of {novel, all, none, reference}" :=
  invalid_policy_fatal (M := Nat) "bogus" (by decide)
    (fun _ _ _ _ _ _ => []) (fun _ _ _ => []) [] none []

end Neoepiscope
